import Mathlib

/-!
Verification of the AI news notifier core (news fetcher / data storage /
notification modules) against its natural-language specification.

The Python modules are shallowly embedded:
* `NewsItem` mirrors the fields of `news_fetcher.NewsItem`; the generated
  `id` (source name + timestamp + title hash) is kept as an ordinary string
  field, since no claim depends on how it is generated.
* The SQLite `news_items` table is a `List NewsItem` (one element per row,
  in insertion order).  `published_time` is stored via `isoformat()` and
  read back via `fromisoformat`, an order- and equality-preserving
  round trip, so the row keeps the timestamp directly as an integer.
* Each storage operation is a pure function from the table state to the
  returned value and the new table state, following the corresponding
  method of `data_storage.DataStorage` statement by statement.
-/

/-- One news item / one row of the `news_items` table
(`news_fetcher.py`, class `NewsItem`). -/
structure NewsItem where
  id : String
  title : String
  link : String
  source : String
  published_time : Int
  category : String
  is_read : Bool
deriving DecidableEq

/-- Body of the per-item loop of `DataStorage.save_news_items`
(`data_storage.py` lines 103-125): skip when a row with the same title
exists (the `SELECT id FROM news_items WHERE title = ?` check, which runs
on the same uncommitted connection and therefore sees rows inserted
earlier in the same call); otherwise attempt the `INSERT`.  An insert that
collides with an existing primary key `id` raises, is caught by the inner
`except`, and leaves the count unchanged. -/
def save_step (acc : Nat × List NewsItem) (item : NewsItem) : Nat × List NewsItem :=
  if acc.2.any (fun r => r.title == item.title) then acc
  else if acc.2.any (fun r => r.id == item.id) then acc
  else (acc.1 + 1, acc.2 ++ [item])

/-- `DataStorage.save_news_items` (`data_storage.py` lines 86-135):
returns the number of newly inserted rows together with the new table
state.  The `if not items: return 0` early exit coincides with the fold
on `[]`. -/
def save_news_items (items : List NewsItem) (db : List NewsItem) : Nat × List NewsItem :=
  items.foldl save_step (0, db)

/-- `DataStorage.mark_as_read` (`data_storage.py` lines 226-253):
`UPDATE news_items SET is_read = 1 WHERE id = ?` followed by
`return True`.  The update succeeds (and `True` is returned) whether or
not any row matches; no rowcount is inspected. -/
def mark_as_read (news_id : String) (db : List NewsItem) : Bool × List NewsItem :=
  (true, db.map (fun r => if r.id == news_id then { r with is_read := true } else r))

/-- Descending comparison on `published_time`, as used by
`ORDER BY published_time DESC` (ISO-8601 text compares like the
timestamp) and by `all_news.sort(key=..., reverse=True)`. -/
def byTimeDesc (a b : NewsItem) : Bool := decide (b.published_time ≤ a.published_time)

/-- `DataStorage.get_unread_news` (`data_storage.py` lines 181-224):
`SELECT ... WHERE is_read = 0 ORDER BY published_time DESC LIMIT ?`.
The SQL sort is modelled by a merge sort with the same key; the claims
about this query depend only on which rows appear in the result. -/
def get_unread_news (limit : Nat) (db : List NewsItem) : List NewsItem :=
  ((db.filter (fun r => r.is_read == false)).mergeSort byTimeDesc).take limit

/-- Characterisation of the `save_news_items` fold: the final table is the
initial table plus a block `ext` of newly inserted rows, the returned
count is `ext.length`, every inserted row is one of the input items, has
a title absent from the initial table, and the inserted titles are
pairwise distinct. -/
theorem save_fold_spec (items : List NewsItem) : ∀ acc : Nat × List NewsItem,
    ∃ ext : List NewsItem,
      List.foldl save_step acc items = (acc.1 + ext.length, acc.2 ++ ext)
      ∧ (∀ r ∈ ext, r ∈ items)
      ∧ (∀ r ∈ ext, ∀ rr ∈ acc.2, r.title ≠ rr.title)
      ∧ ext.Pairwise (fun a b => a.title ≠ b.title) := by
  induction items with
  | nil =>
    intro acc
    exact ⟨[], by simp, by simp, by simp, by simp⟩
  | cons i is ih =>
    intro acc
    by_cases h1 : acc.2.any (fun r => r.title == i.title) = true
    · obtain ⟨ext, hfold, hmem, hnew, hpw⟩ := ih acc
      refine ⟨ext, ?_, ?_, hnew, hpw⟩
      · simpa [save_step, h1] using hfold
      · exact fun r hr => List.mem_cons_of_mem _ (hmem r hr)
    · by_cases h2 : acc.2.any (fun r => r.id == i.id) = true
      · obtain ⟨ext, hfold, hmem, hnew, hpw⟩ := ih acc
        refine ⟨ext, ?_, ?_, hnew, hpw⟩
        · simpa [save_step, h1, h2] using hfold
        · exact fun r hr => List.mem_cons_of_mem _ (hmem r hr)
      · obtain ⟨ext, hfold, hmem, hnew, hpw⟩ := ih (acc.1 + 1, acc.2 ++ [i])
        have hstep : save_step acc i = (acc.1 + 1, acc.2 ++ [i]) := by
          simp [save_step, h1, h2]
        have htitle : ∀ rr ∈ acc.2, i.title ≠ rr.title := by
          intro rr hrr
          simp only [List.any_eq_true, not_exists, not_and] at h1
          intro heq
          exact absurd (beq_iff_eq.mpr heq.symm) (by simpa using h1 rr hrr)
        refine ⟨i :: ext, ?_, ?_, ?_, ?_⟩
        · rw [List.foldl_cons, hstep, hfold]
          refine Prod.ext ?_ ?_
          · simp; omega
          · simp
        · intro r hr
          rcases List.mem_cons.mp hr with h | h
          · exact h ▸ List.mem_cons_self _ _
          · exact List.mem_cons_of_mem _ (hmem r h)
        · intro r hr rr hrr
          rcases List.mem_cons.mp hr with h | h
          · exact h ▸ htitle rr hrr
          · exact hnew r h rr (by simp [hrr])
        · refine List.Pairwise.cons ?_ hpw
          intro r hr
          have := hnew r hr i (by simp)
          exact fun heq => this heq.symm

/-- Appending rows preserves a successful `any` check. -/
theorem save_fold_any_mono (items : List NewsItem) (acc : Nat × List NewsItem)
    (p : NewsItem → Bool) (h : acc.2.any p = true) :
    (List.foldl save_step acc items).2.any p = true := by
  obtain ⟨ext, hfold, -, -, -⟩ := save_fold_spec items acc
  rw [hfold]
  simp only [List.any_append]
  simp [h]

/-- After a `save_news_items` fold, every processed input item is blocked:
some row of the final table shares its title or its id. -/
theorem save_fold_processed (items : List NewsItem) : ∀ acc : Nat × List NewsItem,
    ∀ item ∈ items,
      (List.foldl save_step acc items).2.any (fun r => r.title == item.title) = true
      ∨ (List.foldl save_step acc items).2.any (fun r => r.id == item.id) = true := by
  induction items with
  | nil => simp
  | cons i is ih =>
    intro acc item hmem
    rcases List.mem_cons.mp hmem with rfl | h
    · have hstep : (save_step acc item).2.any (fun r => r.title == item.title) = true
          ∨ (save_step acc item).2.any (fun r => r.id == item.id) = true := by
        by_cases h1 : acc.2.any (fun r => r.title == item.title) = true
        · left; simp [save_step, h1]
        · by_cases h2 : acc.2.any (fun r => r.id == item.id) = true
          · right; simp [save_step, h1, h2]
          · left
            simp [save_step, h1, h2, List.any_append]
      rcases hstep with h' | h'
      · exact Or.inl (save_fold_any_mono is (save_step acc item) _ h')
      · exact Or.inr (save_fold_any_mono is (save_step acc item) _ h')
    · exact ih (save_step acc i) item h

/-- If every input item is already blocked by the current table, the
`save_news_items` fold is the identity. -/
theorem save_fold_skip_all (items : List NewsItem) : ∀ acc : Nat × List NewsItem,
    (∀ item ∈ items,
      acc.2.any (fun r => r.title == item.title) = true
      ∨ acc.2.any (fun r => r.id == item.id) = true) →
    List.foldl save_step acc items = acc := by
  induction items with
  | nil => intro acc _; rfl
  | cons i is ih =>
    intro acc hall
    have hstep : save_step acc i = acc := by
      rcases hall i (List.mem_cons_self _ _) with h1 | h2
      · simp [save_step, h1]
      · by_cases h1 : acc.2.any (fun r => r.title == i.title) = true
        · simp [save_step, h1]
        · simp [save_step, h1, h2]
    rw [List.foldl_cons, hstep]
    exact ih acc (fun item h => hall item (List.mem_cons_of_mem _ h))

/-- C2.  `save_news_items` is idempotent: running the same batch a second
time on the table produced by the first run inserts nothing (returned
count 0) and leaves the stored rows exactly as after the first run. -/
theorem save_news_items_idempotent (items db : List NewsItem) :
    save_news_items items (save_news_items items db).2
      = (0, (save_news_items items db).2) := by
  have hall := save_fold_processed items (0, db)
  exact save_fold_skip_all items (0, (save_news_items items db).2)
    (fun item h => hall item h)

/-- C6.  `save_news_items` never modifies an already-stored row: the new
table is the old table (every row unchanged, in place) followed by a block
of newly inserted rows, each drawn from the input batch and none sharing a
title with any pre-existing row; hence title uniqueness is preserved. -/
theorem save_news_items_frame (items db : List NewsItem) :
    ∃ ext : List NewsItem, (save_news_items items db).2 = db ++ ext
      ∧ (∀ r ∈ ext, r ∈ items)
      ∧ (∀ r ∈ ext, ∀ rr ∈ db, r.title ≠ rr.title)
      ∧ (db.Pairwise (fun a b => a.title ≠ b.title) →
          (save_news_items items db).2.Pairwise (fun a b => a.title ≠ b.title)) := by
  obtain ⟨ext, hfold, hmem, hnew, hpw⟩ := save_fold_spec items (0, db)
  have h2 : (save_news_items items db).2 = db ++ ext := by
    rw [save_news_items, hfold]
  refine ⟨ext, h2, hmem, hnew, ?_⟩
  intro hdb
  rw [h2]
  refine List.pairwise_append.mpr ⟨hdb, hpw, ?_⟩
  intro a ha b hb heq
  exact hnew b hb a ha heq.symm

/-- Two distinct concrete items sharing the title `"t"`. -/
def itemT1 : NewsItem := ⟨"id1", "t", "l1", "s1", 1, "AI", false⟩

/-- A second concrete item with the same title as `itemT1`. -/
def itemT2 : NewsItem := ⟨"id2", "t", "l2", "s2", 2, "AI", false⟩

/-- Witness for C6 at a concrete input: inserting a duplicate-titled item
into a one-row table keeps the table's titles pairwise distinct. -/
theorem save_news_items_frame_witness :
    (save_news_items [itemT2] [itemT1]).2.Pairwise (fun a b => a.title ≠ b.title) := by
  obtain ⟨ext, h1, h2, h3, h4⟩ := save_news_items_frame [itemT2] [itemT1]
  exact h4 (by simp)

/-- C9.  Within a single `save_news_items` call the duplicate check sees
rows inserted earlier in the same call, so a batch with internal duplicate
titles still leaves the table's titles pairwise distinct, and the returned
count equals the number of rows actually added (each title counted at most
once). -/
theorem save_news_items_unique_titles (items db : List NewsItem)
    (h : db.Pairwise (fun a b => a.title ≠ b.title)) :
    (save_news_items items db).2.Pairwise (fun a b => a.title ≠ b.title)
    ∧ (save_news_items items db).1 + db.length = (save_news_items items db).2.length := by
  obtain ⟨ext, hfold, hmem, hnew, hpw⟩ := save_fold_spec items (0, db)
  have h1 : (save_news_items items db).1 = ext.length := by
    rw [save_news_items, hfold]
    simp
  have h2 : (save_news_items items db).2 = db ++ ext := by
    rw [save_news_items, hfold]
  constructor
  · rw [h2]
    refine List.pairwise_append.mpr ⟨h, hpw, ?_⟩
    intro a ha b hb heq
    exact hnew b hb a ha heq.symm
  · rw [h1, h2]
    simp [Nat.add_comm]

/-- Witness for C9: a batch whose two items share the title `"t"` on an
empty table inserts only the first occurrence and reports count 1. -/
theorem save_news_items_unique_titles_witness :
    ((save_news_items [itemT1, itemT2] []).2.Pairwise (fun a b => a.title ≠ b.title)
      ∧ (save_news_items [itemT1, itemT2] []).1 + ([] : List NewsItem).length
          = (save_news_items [itemT1, itemT2] []).2.length)
    ∧ (save_news_items [itemT1, itemT2] []).2 = [itemT1] := by
  refine ⟨save_news_items_unique_titles [itemT1, itemT2] [] (by simp), ?_⟩
  decide

/-- C10.  `mark_as_read` touches at most the `is_read` flag of rows whose
id matches: the row count is unchanged, every field other than `is_read`
of every row is unchanged, and rows whose id differs are unchanged
entirely. -/
theorem mark_as_read_frame (news_id : String) (db : List NewsItem) :
    (mark_as_read news_id db).2.length = db.length
    ∧ ∀ i, ∀ (h : i < db.length) (h2 : i < (mark_as_read news_id db).2.length),
        ((mark_as_read news_id db).2.get ⟨i, h2⟩).title = (db.get ⟨i, h⟩).title
        ∧ ((mark_as_read news_id db).2.get ⟨i, h2⟩).link = (db.get ⟨i, h⟩).link
        ∧ ((mark_as_read news_id db).2.get ⟨i, h2⟩).source = (db.get ⟨i, h⟩).source
        ∧ ((mark_as_read news_id db).2.get ⟨i, h2⟩).published_time
            = (db.get ⟨i, h⟩).published_time
        ∧ ((mark_as_read news_id db).2.get ⟨i, h2⟩).category = (db.get ⟨i, h⟩).category
        ∧ ((mark_as_read news_id db).2.get ⟨i, h2⟩).id = (db.get ⟨i, h⟩).id
        ∧ ((db.get ⟨i, h⟩).id ≠ news_id →
            (mark_as_read news_id db).2.get ⟨i, h2⟩ = db.get ⟨i, h⟩)
        ∧ ((db.get ⟨i, h⟩).id = news_id →
            (mark_as_read news_id db).2.get ⟨i, h2⟩
              = { db.get ⟨i, h⟩ with is_read := true }) := by
  constructor
  · simp [mark_as_read]
  · intro i h h2
    have hg : (mark_as_read news_id db).2.get ⟨i, h2⟩
        = if (db.get ⟨i, h⟩).id == news_id
            then { db.get ⟨i, h⟩ with is_read := true }
            else db.get ⟨i, h⟩ := by
      simp [mark_as_read]
    by_cases hid : (db.get ⟨i, h⟩).id = news_id
    · rw [hg, if_pos (beq_iff_eq.mpr hid)]
      exact ⟨rfl, rfl, rfl, rfl, rfl, rfl, fun hc => absurd hid hc, fun _ => rfl⟩
    · rw [hg, if_neg (by simpa using hid)]
      exact ⟨rfl, rfl, rfl, rfl, rfl, rfl, fun _ => rfl, fun hc => absurd hc hid⟩

/-- Witness for C10 at a concrete input: marking `"id1"` as read leaves
the non-matching second row untouched. -/
theorem mark_as_read_frame_witness :
    (mark_as_read "id1" [itemT1, itemT2]).2.get
        ⟨1, by simp [mark_as_read]⟩ = itemT2 := by
  have h := (mark_as_read_frame "id1" [itemT1, itemT2]).2 1 (by simp)
    (by simp [mark_as_read])
  exact h.2.2.2.2.2.2.1 (by decide)

/-- C1, counterexample to the claim as stated: `mark_as_read` on an id
absent from storage (here, any id on an empty table) returns `true`, not
`false` — the `UPDATE` executes without error and no rowcount is checked. -/
theorem mark_as_read_unknown_id_returns_true :
    mark_as_read "missing" ([] : List NewsItem) = (true, []) := rfl

/-- C1, amended.  `mark_as_read` always reports success (`true`), even
for an unknown id; on an id matching no stored row it leaves storage
unchanged; and after the call no row with that id appears in any
`get_unread_news` result. -/
theorem mark_as_read_amended_spec (news_id : String) (db : List NewsItem) :
    (mark_as_read news_id db).1 = true
    ∧ ((∀ r ∈ db, r.id ≠ news_id) → (mark_as_read news_id db).2 = db)
    ∧ (∀ limit : Nat, ∀ r ∈ get_unread_news limit (mark_as_read news_id db).2,
        r.id ≠ news_id) := by
  refine ⟨rfl, ?_, ?_⟩
  · intro hnone
    simp only [mark_as_read]
    have : ∀ r ∈ db,
        (if r.id == news_id then { r with is_read := true } else r) = r := by
      intro r hr
      rw [if_neg (by simpa using hnone r hr)]
    induction db with
    | nil => rfl
    | cons x xs ih =>
      simp only [List.map_cons]
      rw [this x (List.mem_cons_self _ _),
        ih (fun r hr => hnone r (List.mem_cons_of_mem _ hr))
          (fun r hr => this r (List.mem_cons_of_mem _ hr))]
  · intro limit r hr
    have hr1 : r ∈ ((mark_as_read news_id db).2.filter
        (fun r => r.is_read == false)).mergeSort byTimeDesc :=
      List.take_subset _ _ hr
    have hr2 := List.mem_mergeSort.mp hr1
    have hr3 := List.mem_filter.mp hr2
    obtain ⟨x, hx, hfx⟩ := List.mem_map.mp hr3.1
    by_cases hid : x.id == news_id
    · exfalso
      rw [if_pos hid] at hfx
      have : r.is_read = true := by rw [← hfx]
      simp [this] at hr3
    · rw [if_neg hid] at hfx
      rw [← hfx]
      simpa using hid

/-- Witness for C1 at concrete inputs: an unknown id leaves the one-row
table unchanged, and a marked id disappears from unread results. -/
theorem mark_as_read_amended_spec_witness :
    (mark_as_read "id1" [itemT2]).1 = true
    ∧ (mark_as_read "id1" [itemT2]).2 = [itemT2]
    ∧ (∀ r ∈ get_unread_news 10 (mark_as_read "id2" [itemT2]).2, r.id ≠ "id2") := by
  refine ⟨(mark_as_read_amended_spec "id1" [itemT2]).1, ?_, ?_⟩
  · exact (mark_as_read_amended_spec "id1" [itemT2]).2.1 (by decide)
  · exact fun r hr => (mark_as_read_amended_spec "id2" [itemT2]).2.2 10 r hr

/-- Python's substring operator `pat in hay` on character lists. -/
def occursIn (pat : List Char) : List Char → Bool
  | [] => pat.isEmpty
  | c :: rest => pat.isPrefixOf (c :: rest) || occursIn pat rest

/-- `pat in s` on strings (Python substring containment). -/
def strContains (s pat : String) : Bool := occursIn pat.data s.data

/-- Python's `str.lower()`: character-wise lower-casing (ASCII range; no
character of the fixed keyword lists is affected beyond it). -/
def strToLower (s : String) : String := String.mk (s.data.map Char.toLower)

/-- `NewsFetcher.ai_keywords` (`news_fetcher.py` lines 95-99). -/
def ai_keywords : List String :=
  ["人工智能", "AI", "机器学习", "深度学习", "神经网络", "自然语言处理",
   "NLP", "计算机视觉", "语音识别", "强化学习", "大语言模型", "LLM",
   "GPT", "BERT", "transformer", "diffusion", "生成式AI", "生成式人工智能"]

/-- `NewsFetcher.tech_keywords` (`news_fetcher.py` lines 101-105). -/
def tech_keywords : List String :=
  ["科技", "技术", "创新", "数字化", "量子计算", "区块链", "元宇宙",
   "VR", "AR", "XR", "机器人", "自动驾驶", "物联网", "IoT", "5G", "6G",
   "半导体", "芯片", "云计算", "边缘计算"]

/-- One keyword-scanning loop of `NewsFetcher._categorize_by_keywords`:
walk the ordered keyword list and return the category at the first
(case-insensitive, substring) match. -/
def scanKeywords (cat : String) (title_lower : String) : List String → Option String
  | [] => none
  | k :: ks =>
    if strContains title_lower (strToLower k) then some cat
    else scanKeywords cat title_lower ks

/-- `NewsFetcher._categorize_by_keywords` (`news_fetcher.py` lines
243-258): lower-case the title, scan the AI keywords (first match wins,
category `"AI"`), then the tech keywords (category `"科技"`), else the
default `"AI/科技"`. -/
def categorize_by_keywords (title : String) : String :=
  let title_lower := strToLower title
  match scanKeywords "AI" title_lower ai_keywords with
  | some c => c
  | none =>
    match scanKeywords "科技" title_lower tech_keywords with
    | some c => c
    | none => "AI/科技"

theorem scanKeywords_eq_any (cat : String) (tl : String) : ∀ ks : List String,
    scanKeywords cat tl ks
      = (if ks.any (fun k => strContains tl (strToLower k)) then some cat else none) := by
  intro ks
  induction ks with
  | nil => rfl
  | cons k ks ih =>
    by_cases h : strContains tl (strToLower k) = true
    · simp [scanKeywords, h]
    · simp [scanKeywords, h, ih]

/-- C4.  Categorization lower-cases the title and returns `"AI"` if any
AI keyword occurs as a case-insensitive substring, else `"科技"` if any
tech keyword occurs, else the default `"AI/科技"`; matching is
substring-based and AI keywords take precedence.  The spec's three
concrete examples are checked alongside. -/
theorem categorize_by_keywords_spec (title : String) :
    (categorize_by_keywords title
      = (if ai_keywords.any (fun k => strContains (strToLower title) (strToLower k)) then "AI"
         else if tech_keywords.any (fun k => strContains (strToLower title) (strToLower k)) then "科技"
         else "AI/科技"))
    ∧ categorize_by_keywords "新研究:深度学习再突破" = "AI"
    ∧ categorize_by_keywords "区块链应用新进展" = "科技"
    ∧ categorize_by_keywords "今日天气播报" = "AI/科技" := by
  refine ⟨?_, by decide, by decide, by decide⟩
  simp only [categorize_by_keywords, scanKeywords_eq_any]
  by_cases h1 : ai_keywords.any (fun k => strContains (strToLower title) (strToLower k)) = true
  · simp [h1]
  · by_cases h2 : tech_keywords.any (fun k => strContains (strToLower title) (strToLower k)) = true
    · simp [h1, h2]
    · simp [h1, h2]

/-- The dedup pass of `NewsFetcher.fetch_all_news` (`news_fetcher.py`
lines 231-238): scan left to right keeping a set of seen titles; an item
whose title was already seen is dropped, otherwise it is kept and its
title added to the set. -/
def dedupByTitle (seen : List String) : List NewsItem → List NewsItem
  | [] => []
  | x :: xs =>
    if seen.contains x.title then dedupByTitle seen xs
    else x :: dedupByTitle (x.title :: seen) xs

/-- The sort-and-dedup phase of `NewsFetcher.fetch_all_news`
(`news_fetcher.py` lines 228-238): stable sort by `published_time`
descending (Python's stable `list.sort` with `reverse=True`), then drop
every occurrence of a title after the first. -/
def mergeAndDedup (l : List NewsItem) : List NewsItem :=
  dedupByTitle [] (l.mergeSort byTimeDesc)

theorem byTimeDesc_trans : ∀ a b c : NewsItem,
    byTimeDesc a b → byTimeDesc b c → byTimeDesc a c := by
  intro a b c hab hbc
  simp only [byTimeDesc, decide_eq_true_eq] at *
  omega

theorem byTimeDesc_total : ∀ a b : NewsItem, byTimeDesc a b || byTimeDesc b a := by
  intro a b
  simp only [byTimeDesc, Bool.or_eq_true, decide_eq_true_eq]
  omega

theorem dedupByTitle_sublist : ∀ (l : List NewsItem) (seen : List String),
    (dedupByTitle seen l).Sublist l := by
  intro l
  induction l with
  | nil => intro seen; simp [dedupByTitle]
  | cons x xs ih =>
    intro seen
    by_cases h : seen.contains x.title = true
    · simp only [dedupByTitle, h, if_true]
      exact (ih seen).cons x
    · simp only [dedupByTitle, h, if_false, Bool.false_eq_true]
      exact (ih (x.title :: seen)).cons₂ x

theorem dedupByTitle_not_seen : ∀ (l : List NewsItem) (seen : List String),
    ∀ y ∈ dedupByTitle seen l, y.title ∉ seen := by
  intro l
  induction l with
  | nil => intro seen y hy; simp [dedupByTitle] at hy
  | cons x xs ih =>
    intro seen y hy
    by_cases h : seen.contains x.title = true
    · rw [dedupByTitle, if_pos h] at hy
      exact ih seen y hy
    · rw [dedupByTitle, if_neg h] at hy
      rcases List.mem_cons.mp hy with rfl | hy'
      · intro hc
        exact h (List.elem_eq_true_of_mem hc)
      · intro hc
        exact ih (x.title :: seen) y hy' (List.mem_cons_of_mem _ hc)

theorem dedupByTitle_pairwise : ∀ (l : List NewsItem) (seen : List String),
    (dedupByTitle seen l).Pairwise (fun a b => a.title ≠ b.title) := by
  intro l
  induction l with
  | nil => intro seen; simp [dedupByTitle]
  | cons x xs ih =>
    intro seen
    by_cases h : seen.contains x.title = true
    · rw [dedupByTitle, if_pos h]
      exact ih seen
    · rw [dedupByTitle, if_neg h]
      refine List.Pairwise.cons ?_ (ih (x.title :: seen))
      intro y hy heq
      exact dedupByTitle_not_seen xs (x.title :: seen) y hy
        (heq ▸ List.mem_cons_self _ _)

theorem dedupByTitle_covers : ∀ (l : List NewsItem) (seen : List String),
    l.Pairwise (fun a b => b.published_time ≤ a.published_time) →
    ∀ x ∈ l, x.title ∉ seen →
    ∃ y ∈ dedupByTitle seen l,
      y.title = x.title ∧ x.published_time ≤ y.published_time := by
  intro l
  induction l with
  | nil => intro seen _ x hx; simp at hx
  | cons z zs ih =>
    intro seen hpw x hx hseen
    by_cases h : seen.contains z.title = true
    · rw [dedupByTitle, if_pos h]
      rcases List.mem_cons.mp hx with rfl | hx'
      · exact absurd (List.mem_of_elem_eq_true h) hseen
      · exact ih seen hpw.of_cons x hx' hseen
    · rw [dedupByTitle, if_neg h]
      rcases List.mem_cons.mp hx with rfl | hx'
      · exact ⟨x, List.mem_cons_self _ _, rfl, le_refl _⟩
      · by_cases ht : x.title = z.title
        · exact ⟨z, List.mem_cons_self _ _, ht.symm,
            List.rel_of_pairwise_cons hpw hx'⟩
        · obtain ⟨y, hy, hyt, hyp⟩ := ih (z.title :: seen) hpw.of_cons x hx'
            (by
              intro hc
              rcases List.mem_cons.mp hc with h1 | h2
              · exact ht h1
              · exact hseen h2)
          exact ⟨y, List.mem_cons_of_mem _ hy, hyt, hyp⟩

/-- C3.  The sort-and-dedup phase of `fetch_all_news`: the sort is a
permutation of the input, ordered by `published_time` descending, and
stable (a pair in input order with equal timestamps stays in that order);
the output is a subsequence of the sorted list (post-sort order
preserved, later duplicates dropped), its titles are pairwise distinct,
and every input item is represented by an output item with the same
title and a `published_time` at least as large (the newest duplicate
wins). -/
theorem mergeAndDedup_spec (items : List NewsItem) :
    (items.mergeSort byTimeDesc).Perm items
    ∧ (items.mergeSort byTimeDesc).Pairwise
        (fun a b => b.published_time ≤ a.published_time)
    ∧ (∀ a b : NewsItem, a.published_time = b.published_time →
        [a, b].Sublist items → [a, b].Sublist (items.mergeSort byTimeDesc))
    ∧ (mergeAndDedup items).Sublist (items.mergeSort byTimeDesc)
    ∧ (mergeAndDedup items).Pairwise (fun a b => a.title ≠ b.title)
    ∧ (∀ x ∈ items, ∃ y ∈ mergeAndDedup items,
        y.title = x.title ∧ x.published_time ≤ y.published_time) := by
  have hsorted : (items.mergeSort byTimeDesc).Pairwise
      (fun a b => b.published_time ≤ a.published_time) := by
    have h := List.sorted_mergeSort byTimeDesc_trans byTimeDesc_total items
    exact h.imp (fun hab => by simpa [byTimeDesc] using hab)
  refine ⟨List.mergeSort_perm items byTimeDesc, hsorted, ?_, ?_, ?_, ?_⟩
  · intro a b heq hsub
    refine List.pair_sublist_mergeSort byTimeDesc_trans byTimeDesc_total ?_ hsub
    simp [byTimeDesc, heq]
  · exact dedupByTitle_sublist _ []
  · exact dedupByTitle_pairwise _ []
  · intro x hx
    exact dedupByTitle_covers (items.mergeSort byTimeDesc) [] hsorted x
      (List.mem_mergeSort.mpr hx) (by simp)

/-- Concrete item `A@t1` of the spec's dedup example. -/
def itemA1 : NewsItem := ⟨"ia1", "A", "la1", "s", 1, "c", false⟩

/-- Concrete item `B@t2` of the spec's dedup example. -/
def itemB2 : NewsItem := ⟨"ib2", "B", "lb2", "s", 2, "c", false⟩

/-- Concrete item `A'@t3` of the spec's dedup example (same title as
`itemA1`, newer timestamp). -/
def itemA3 : NewsItem := ⟨"ia3", "A", "la3", "s", 3, "c", false⟩

/-- Witness for C3 on the spec's example `{A@1, B@2, A'@3}`: the result
is `[A'@3, B@2]` and the stale duplicate `A@1` is represented by the
newer `A'@3`. -/
theorem mergeAndDedup_spec_witness :
    (∃ y ∈ mergeAndDedup [itemA1, itemB2, itemA3],
        y.title = itemA1.title ∧ itemA1.published_time ≤ y.published_time)
    ∧ mergeAndDedup [itemA1, itemB2, itemA3] = [itemA3, itemB2] := by
  constructor
  · exact (mergeAndDedup_spec [itemA1, itemB2, itemA3]).2.2.2.2.2 itemA1
      (List.mem_cons_self _ _)
  · have hsort : [itemA1, itemB2, itemA3].mergeSort byTimeDesc
        = [itemA3, itemB2, itemA1] := by
      simp [List.mergeSort, List.merge, byTimeDesc, itemA1, itemB2, itemA3,
        List.splitInTwo]
    rw [mergeAndDedup, hsort]
    decide

/-- One RSS feed configuration (`news_fetcher.py` lines 71-92). -/
structure RssFeed where
  name : String
  url : String
  category : String
deriving DecidableEq

/-- `NewsFetcher.rss_feeds` (`news_fetcher.py` lines 71-92). -/
def rss_feeds : List RssFeed :=
  [⟨"MIT Technology Review", "https://www.technologyreview.com/feed/", "科技"⟩,
   ⟨"Wired", "https://www.wired.com/feed/rss", "科技"⟩,
   ⟨"AI News", "https://artificialintelligence-news.com/feed/", "AI"⟩,
   ⟨"VentureBeat AI", "https://venturebeat.com/category/ai/feed/", "AI"⟩]

/-- One raw RSS entry.  `published` is the result of parsing the
`published` field: `none` models a `strptime` `ValueError`, in which case
the code falls back to the current time (`news_fetcher.py` lines
199-204). -/
structure RssEntry where
  title : String
  link : String
  published : Option Int
deriving DecidableEq

/-- One raw NewsAPI article after field extraction (`news_fetcher.py`
lines 140-152). -/
structure ApiArticle where
  source_name : String
  title : String
  url : String
  publishedAt : Int
deriving DecidableEq

/-- Building a `NewsItem` from a NewsAPI article (`news_fetcher.py` lines
146-152).  `idGen` abstracts the id generator of `NewsItem.__init__`
(source name + wall-clock second + title hash). -/
def normalizeApiArticle (idGen : String → String → String) (a : ApiArticle) : NewsItem :=
  ⟨idGen a.source_name a.title, a.title, a.url, a.source_name, a.publishedAt,
    categorize_by_keywords a.title, false⟩

/-- `NewsFetcher.fetch_from_newsapi` (`news_fetcher.py` lines 107-159).
The whole body sits in one `try`: acquiring and decoding the response
(mocked in the source) is modelled by the `Except` argument; any
exception raised inside the `try` is caught and yields `[]`. -/
def fetch_from_newsapi (idGen : String → String → String)
    (resp : Except String (List ApiArticle)) : List NewsItem :=
  match resp with
  | Except.error _ => []
  | Except.ok articles => articles.map (normalizeApiArticle idGen)

/-- Building a `NewsItem` from an RSS entry (`news_fetcher.py` lines
199-212): a failed `strptime` falls back to `now`, the category is the
feed's configured category. -/
def normalizeRssEntry (idGen : String → String → String) (now : Int)
    (feed : RssFeed) (e : RssEntry) : NewsItem :=
  ⟨idGen feed.name e.title, e.title, e.link, feed.name, e.published.getD now,
    feed.category, false⟩

/-- `NewsFetcher.fetch_from_rss` (`news_fetcher.py` lines 161-218): one
`try` per configured feed, appending that feed's normalized entries to
the shared accumulator; an exception inside a feed's block is caught and
contributes nothing for that feed only.  Each feed's outcome (its entry
list, or the exception) is the paired `Except` value. -/
def fetch_from_rss (idGen : String → String → String) (now : Int)
    (results : List (RssFeed × Except String (List RssEntry))) : List NewsItem :=
  results.foldl
    (fun acc fr =>
      match fr.2 with
      | Except.error _ => acc
      | Except.ok entries => acc ++ entries.map (normalizeRssEntry idGen now fr.1))
    []

/-- `NewsFetcher.fetch_all_news` (`news_fetcher.py` lines 220-241):
concatenate the per-source results, then sort and dedup. -/
def fetch_all_news (idGen : String → String → String) (now : Int)
    (resp : Except String (List ApiArticle))
    (results : List (RssFeed × Except String (List RssEntry))) : List NewsItem :=
  mergeAndDedup (fetch_from_newsapi idGen resp ++ fetch_from_rss idGen now results)

theorem fetch_from_rss_foldl (idGen : String → String → String) (now : Int) :
    ∀ (results : List (RssFeed × Except String (List RssEntry)))
      (acc : List NewsItem),
      results.foldl
        (fun acc fr =>
          match fr.2 with
          | Except.error _ => acc
          | Except.ok entries => acc ++ entries.map (normalizeRssEntry idGen now fr.1))
        acc
      = acc ++ (results.map (fun fr =>
          match fr.2 with
          | Except.error _ => []
          | Except.ok entries => entries.map (normalizeRssEntry idGen now fr.1))).flatten := by
  intro results
  induction results with
  | nil => intro acc; simp
  | cons fr rest ih =>
    intro acc
    rcases fr with ⟨feed, res⟩
    cases res with
    | error e =>
      simp only [List.foldl_cons, List.map_cons, List.flatten]
      rw [ih acc]
      simp
    | ok entries =>
      simp only [List.foldl_cons, List.map_cons, List.flatten]
      rw [ih (acc ++ entries.map (normalizeRssEntry idGen now feed))]
      simp

/-- C7.  Per-source fault tolerance: a failed NewsAPI fetch yields `[]`;
`fetch_from_rss` is the concatenation of its feeds' individual results,
a failed feed contributing `[]` (so a failure in one feed removes exactly
that feed's segment and every other feed's items survive); and
`fetch_all_news` still processes the concatenation of all remaining
sources when any one feed fails. -/
theorem fetch_fault_tolerant (idGen : String → String → String) (now : Int) :
    (∀ e : String, fetch_from_newsapi idGen (Except.error e) = [])
    ∧ (∀ results : List (RssFeed × Except String (List RssEntry)),
        fetch_from_rss idGen now results
          = (results.map (fun fr =>
              match fr.2 with
              | Except.error _ => []
              | Except.ok entries => entries.map (normalizeRssEntry idGen now fr.1))).flatten)
    ∧ (∀ (pre post : List (RssFeed × Except String (List RssEntry)))
        (feed : RssFeed) (e : String),
        fetch_from_rss idGen now (pre ++ (feed, Except.error e) :: post)
          = fetch_from_rss idGen now pre ++ fetch_from_rss idGen now post)
    ∧ (∀ (resp : Except String (List ApiArticle))
        (pre post : List (RssFeed × Except String (List RssEntry)))
        (feed : RssFeed) (e : String),
        fetch_all_news idGen now resp (pre ++ (feed, Except.error e) :: post)
          = mergeAndDedup (fetch_from_newsapi idGen resp
              ++ (fetch_from_rss idGen now pre ++ fetch_from_rss idGen now post))) := by
  have hjoin : ∀ results : List (RssFeed × Except String (List RssEntry)),
      fetch_from_rss idGen now results
        = (results.map (fun fr =>
            match fr.2 with
            | Except.error _ => []
            | Except.ok entries => entries.map (normalizeRssEntry idGen now fr.1))).flatten := by
    intro results
    rw [fetch_from_rss, fetch_from_rss_foldl]
    simp
  have hsplit : ∀ (pre post : List (RssFeed × Except String (List RssEntry)))
      (feed : RssFeed) (e : String),
      fetch_from_rss idGen now (pre ++ (feed, Except.error e) :: post)
        = fetch_from_rss idGen now pre ++ fetch_from_rss idGen now post := by
    intro pre post feed e
    rw [hjoin, hjoin, hjoin]
    simp
  refine ⟨fun e => rfl, hjoin, hsplit, ?_⟩
  intro resp pre post feed e
  rw [fetch_all_news, hsplit]

/-- Observable events of `NotificationManager.show_multiple_news_notifications`:
a dispatch attempt for an item (with its success flag, i.e. the value
returned by `show_news_notification`) or a `time.sleep(delay)`. -/
inductive NotifyEvent where
  | attempt (item : NewsItem) (ok : Bool)
  | sleep (delay : Int)
deriving DecidableEq

/-- The loop of `NotificationManager.show_multiple_news_notifications`
(`notification.py` lines 117-126): for each item in order, attempt the
notification (the success of `show_news_notification`, which depends on
the toaster environment, is the Bool paired with the item); on success
increment the count and, while the running success count is below the
TOTAL input length, sleep for `delay`.  `total` is `len(news_items)`. -/
def notifyGo (total : Nat) (delay : Int) :
    Nat → List (NewsItem × Bool) → Nat × List NotifyEvent
  | count, [] => (count, [])
  | count, (item, ok) :: rest =>
    if ok then
      let next := notifyGo total delay (count + 1) rest
      if count + 1 < total then
        (next.1, NotifyEvent.attempt item true :: NotifyEvent.sleep delay :: next.2)
      else
        (next.1, NotifyEvent.attempt item true :: next.2)
    else
      let next := notifyGo total delay count rest
      (next.1, NotifyEvent.attempt item false :: next.2)

/-- `NotificationManager.show_multiple_news_notifications`
(`notification.py` lines 104-126): returns the number of successfully
dispatched notifications together with the event trace. -/
def show_multiple_news_notifications (items : List (NewsItem × Bool))
    (delay : Int) : Nat × List NotifyEvent :=
  if items.isEmpty then (0, []) else notifyGo items.length delay 0 items

/-- C8, evaluation at the failing input.  With a batch of two items where
the first notification fails and the second succeeds, the loop guard
`success_count < len(news_items)` (1 < 2) is still true after the final
item's success, so the code sleeps AFTER the last item — contradicting
the claim's "no delay after the last item" (and the code's own comment,
which says the wait is before showing the next notification).  The
returned count (1), the in-order processing, and the continuation past
the failed first item are all visible in the trace. -/
theorem notify_batch_failing_input :
    show_multiple_news_notifications [(itemA1, false), (itemB2, true)] 2
      = (1, [NotifyEvent.attempt itemA1 false, NotifyEvent.attempt itemB2 true,
             NotifyEvent.sleep 2]) := by
  decide

/-!
The settings store (`data_storage.py` lines 255-329) serializes values
with `json.dumps` and reads them back with `json.loads`.  The two
standard-library functions are modelled below by a canonical JSON
printer and a fuel-indexed parser over an explicit JSON value type
(`null` / booleans / integers / strings / arrays / string-keyed
objects); `loads` returning `none` models a raised `JSONDecodeError`,
which `get_setting` turns into the caller-supplied default.
-/

/-- A JSON value. -/
inductive JValue where
  | null
  | bool (b : Bool)
  | num (n : Int)
  | str (s : String)
  | arr (elems : List JValue)
  | obj (fields : List (String × JValue))

/-- Decimal digit character. -/
def digitChar : Nat → Char
  | 0 => '0' | 1 => '1' | 2 => '2' | 3 => '3' | 4 => '4'
  | 5 => '5' | 6 => '6' | 7 => '7' | 8 => '8' | _ => '9'

/-- Numeric value of a digit character. -/
def digitVal (c : Char) : Nat := c.toNat - 48

/-- Decimal digits of a natural number, most significant first. -/
def natToDigits (n : Nat) : List Char :=
  if n < 10 then [digitChar n]
  else natToDigits (n / 10) ++ [digitChar (n % 10)]
termination_by n
decreasing_by exact Nat.div_lt_self (by omega) (by omega)

/-- Value of a digit string, accumulator style. -/
def digitsVal (acc : Nat) : List Char → Nat
  | [] => acc
  | c :: cs => digitsVal (acc * 10 + digitVal c) cs

/-- JSON string escaping of one character (quote and backslash). -/
def escapeChar (c : Char) : List Char :=
  if c = '"' ∨ c = '\\' then ['\\', c] else [c]

/-- JSON string escaping. -/
def escapeStr (s : List Char) : List Char := (s.map escapeChar).flatten

mutual

/-- Serialized form of a JSON value (canonical separators). -/
def dumpsVal : JValue → List Char
  | .null => "null".data
  | .bool true => "true".data
  | .bool false => "false".data
  | .num n => if n < 0 then '-' :: natToDigits n.natAbs else natToDigits n.toNat
  | .str s => '"' :: (escapeStr s.data ++ ['"'])
  | .arr xs => '[' :: dumpsElems xs
  | .obj fs => '{' :: dumpsFields fs

/-- Serialized array elements including the closing bracket. -/
def dumpsElems : List JValue → List Char
  | [] => [']']
  | [x] => dumpsVal x ++ [']']
  | x :: y :: ys => dumpsVal x ++ ',' :: dumpsElems (y :: ys)

/-- Serialized object fields including the closing brace. -/
def dumpsFields : List (String × JValue) → List Char
  | [] => ['}']
  | [(k, v)] => '"' :: (escapeStr k.data ++ '"' :: ':' :: (dumpsVal v ++ ['}']))
  | (k, v) :: f :: fs =>
    '"' :: (escapeStr k.data ++ '"' :: ':' :: (dumpsVal v ++ ',' :: dumpsFields (f :: fs)))

end

/-- Body of a JSON string literal up to the closing quote; unescaping is
the inverse of `escapeChar`. -/
def parseStrBody : List Char → Option (List Char × List Char)
  | [] => none
  | c :: rest =>
    if c = '\\' then
      match rest with
      | [] => none
      | d :: rest2 =>
        match parseStrBody rest2 with
        | none => none
        | some p => some (d :: p.1, p.2)
    else if c = '"' then some ([], rest)
    else
      match parseStrBody rest with
      | none => none
      | some p => some (c :: p.1, p.2)

/-- Greedy parse of a decimal natural number. -/
def parseNat (cs : List Char) : Option (Nat × List Char) :=
  let ds := cs.takeWhile Char.isDigit
  if ds.isEmpty then none
  else some (digitsVal 0 ds, cs.dropWhile Char.isDigit)

mutual

/-- Fuel-indexed JSON value parser. -/
def parseValue : Nat → List Char → Option (JValue × List Char)
  | 0, _ => none
  | fuel + 1, cs =>
    match cs with
    | [] => none
    | c :: rest =>
      if c = 'n' then
        match rest with
        | 'u' :: 'l' :: 'l' :: rest2 => some (.null, rest2)
        | _ => none
      else if c = 't' then
        match rest with
        | 'r' :: 'u' :: 'e' :: rest2 => some (.bool true, rest2)
        | _ => none
      else if c = 'f' then
        match rest with
        | 'a' :: 'l' :: 's' :: 'e' :: rest2 => some (.bool false, rest2)
        | _ => none
      else if c = '"' then
        match parseStrBody rest with
        | none => none
        | some p => some (.str (String.mk p.1), p.2)
      else if c = '[' then
        match parseElems fuel rest with
        | none => none
        | some p => some (.arr p.1, p.2)
      else if c = '{' then
        match parseFields fuel rest with
        | none => none
        | some p => some (.obj p.1, p.2)
      else if c = '-' then
        match parseNat rest with
        | none => none
        | some p => some (.num (-(p.1 : Int)), p.2)
      else if c.isDigit then
        match parseNat (c :: rest) with
        | none => none
        | some p => some (.num (p.1 : Int), p.2)
      else none

/-- Fuel-indexed parser for array elements up to the closing bracket. -/
def parseElems : Nat → List Char → Option (List JValue × List Char)
  | 0, _ => none
  | fuel + 1, cs =>
    if cs.head? = some ']' then some ([], cs.tail)
    else
      match parseValue fuel cs with
      | none => none
      | some p =>
        match p.2 with
        | ',' :: rest2 =>
          match parseElems fuel rest2 with
          | none => none
          | some q => some (p.1 :: q.1, q.2)
        | ']' :: rest2 => some ([p.1], rest2)
        | _ => none

/-- Fuel-indexed parser for object fields up to the closing brace. -/
def parseFields : Nat → List Char → Option (List (String × JValue) × List Char)
  | 0, _ => none
  | fuel + 1, cs =>
    if cs.head? = some '}' then some ([], cs.tail)
    else
      match cs with
      | '"' :: cs2 =>
        match parseStrBody cs2 with
        | none => none
        | some pk =>
          match pk.2 with
          | ':' :: rest2 =>
            match parseValue fuel rest2 with
            | none => none
            | some pv =>
              match pv.2 with
              | ',' :: rest3 =>
                match parseFields fuel rest3 with
                | none => none
                | some q => some ((String.mk pk.1, pv.1) :: q.1, q.2)
              | '}' :: rest3 => some ([(String.mk pk.1, pv.1)], rest3)
              | _ => none
          | _ => none
      | _ => none

end

/-- `json.dumps` on the modelled value space. -/
def dumps (v : JValue) : String := String.mk (dumpsVal v)

/-- `json.loads` on the modelled value space: parse the whole string or
fail (`none` models a raised `JSONDecodeError`). -/
def loads (s : String) : Option JValue :=
  match parseValue (2 * s.data.length + 2) s.data with
  | some (v, []) => some v
  | _ => none



theorem digitChar_isDigit (d : Nat) : (digitChar d).isDigit = true := by
  unfold digitChar
  split <;> decide

theorem digitVal_digitChar (d : Nat) (h : d < 10) : digitVal (digitChar d) = d := by
  interval_cases d <;> decide

theorem natToDigits_ne_nil (n : Nat) : natToDigits n ≠ [] := by
  rw [natToDigits]
  split <;> simp

theorem natToDigits_all_digits (n : Nat) : ∀ c ∈ natToDigits n, c.isDigit = true := by
  induction n using natToDigits.induct with
  | case1 n h =>
    rw [natToDigits, if_pos h]
    intro c hc
    rcases List.mem_singleton.mp hc with rfl
    exact digitChar_isDigit n
  | case2 n h ih =>
    rw [natToDigits, if_neg h]
    intro c hc
    rcases List.mem_append.mp hc with h1 | h1
    · exact ih c h1
    · rcases List.mem_singleton.mp h1 with rfl
      exact digitChar_isDigit _

theorem digitsVal_cons (acc : Nat) (c : Char) (cs : List Char) :
    digitsVal acc (c :: cs) = digitsVal (acc * 10 + digitVal c) cs := rfl

theorem digitsVal_append (l1 l2 : List Char) : ∀ acc,
    digitsVal acc (l1 ++ l2) = digitsVal (digitsVal acc l1) l2 := by
  induction l1 with
  | nil => intro acc; rfl
  | cons c cs ih =>
    intro acc
    rw [List.cons_append, digitsVal_cons, digitsVal_cons]
    exact ih _

theorem digitsVal_natToDigits (n : Nat) : ∀ acc,
    digitsVal acc (natToDigits n) = acc * 10 ^ (natToDigits n).length + n := by
  induction n using natToDigits.induct with
  | case1 n h =>
    intro acc
    rw [natToDigits, if_pos h, digitsVal_cons, digitVal_digitChar n h]
    have hnil : ∀ a : Nat, digitsVal a [] = a := fun _ => rfl
    rw [hnil]
    simp
  | case2 n h ih =>
    intro acc
    rw [natToDigits, if_neg h, digitsVal_append, ih acc]
    have hlen : (natToDigits (n / 10) ++ [digitChar (n % 10)]).length
        = (natToDigits (n / 10)).length + 1 := by simp
    rw [hlen, pow_succ, digitsVal_cons, digitVal_digitChar (n % 10) (by omega)]
    have hnil : ∀ a : Nat, digitsVal a [] = a := fun _ => rfl
    rw [hnil, Nat.add_mul, ← Nat.mul_assoc]
    omega

theorem digitsVal_natToDigits0 (n : Nat) : digitsVal 0 (natToDigits n) = n := by
  simpa using digitsVal_natToDigits n 0

/-- The next character, if any, is not a digit (so a greedy number parse
stops exactly at the boundary). -/
def headNotDigit : List Char → Bool
  | [] => true
  | c :: _ => !c.isDigit

theorem takeWhile_append_of_all (p : Char → Bool) (l2 : List Char) :
    ∀ l1 : List Char, (∀ c ∈ l1, p c = true) →
      (l1 ++ l2).takeWhile p = l1 ++ l2.takeWhile p
      ∧ (l1 ++ l2).dropWhile p = l2.dropWhile p := by
  intro l1
  induction l1 with
  | nil => intro _; simp
  | cons c cs ih =>
    intro hall
    have hc : p c = true := hall c (List.mem_cons_self _ _)
    have := ih (fun d hd => hall d (List.mem_cons_of_mem _ hd))
    constructor
    · simp only [List.cons_append, List.takeWhile_cons, hc, if_true]
      rw [this.1]
    · simp only [List.cons_append, List.dropWhile_cons, hc, if_true]
      exact this.2

theorem takeWhile_of_headNot (p : Char → Bool) :
    ∀ l : List Char, (match l with | [] => true | c :: _ => !p c) = true →
      l.takeWhile p = [] ∧ l.dropWhile p = l := by
  intro l h
  cases l with
  | nil => simp
  | cons c cs =>
    simp only [Bool.not_eq_true'] at h
    simp [List.takeWhile_cons, List.dropWhile_cons, h]

theorem parseNat_natToDigits (n : Nat) (rest : List Char)
    (h : headNotDigit rest = true) :
    parseNat (natToDigits n ++ rest) = some (n, rest) := by
  have hall := natToDigits_all_digits n
  have h1 := takeWhile_append_of_all Char.isDigit rest (natToDigits n) hall
  have h2 : rest.takeWhile Char.isDigit = [] ∧ rest.dropWhile Char.isDigit = rest := by
    refine takeWhile_of_headNot Char.isDigit rest ?_
    cases rest with
    | nil => rfl
    | cons c cs => simpa [headNotDigit] using h
  rw [parseNat]
  simp only [h1.1, h1.2, h2.1, h2.2, List.append_nil]
  rw [if_neg (by simpa using natToDigits_ne_nil n)]
  rw [digitsVal_natToDigits0]

theorem parseStrBody_escape (rest : List Char) : ∀ s : List Char,
    parseStrBody (escapeStr s ++ '"' :: rest) = some (s, rest) := by
  intro s
  induction s with
  | nil =>
    have hesc : escapeStr [] = [] := by simp [escapeStr]
    rw [hesc, List.nil_append, parseStrBody.eq_def]
    simp
  | cons c cs ih =>
    by_cases hc : c = '"' ∨ c = '\\'
    · have hesc : escapeStr (c :: cs) = '\\' :: c :: escapeStr cs := by
        simp [escapeStr, escapeChar, hc]
      rw [hesc, List.cons_append, List.cons_append, parseStrBody.eq_def]
      simp [ih]
    · have hesc : escapeStr (c :: cs) = c :: escapeStr cs := by
        simp [escapeStr, escapeChar, hc]
      push_neg at hc
      rw [hesc, List.cons_append, parseStrBody.eq_def]
      simp [hc.1, hc.2, ih]

mutual

/-- Parser-fuel weight of a value: one unit per parser call on the path. -/
def jsize : JValue → Nat
  | .arr xs => 1 + jsizeElems xs
  | .obj fs => 1 + jsizeFields fs
  | _ => 1

/-- Parser-fuel weight of an element list. -/
def jsizeElems : List JValue → Nat
  | [] => 1
  | x :: xs => 1 + jsize x + jsizeElems xs

/-- Parser-fuel weight of a field list. -/
def jsizeFields : List (String × JValue) → Nat
  | [] => 1
  | f :: fs => 1 + jsize f.2 + jsizeFields fs

end

/-- Structural induction over `JValue` with member-wise hypotheses for the
nested lists. -/
theorem JValue.recStrong (P : JValue → Prop)
    (hnull : P .null) (hbool : ∀ b, P (.bool b)) (hnum : ∀ n, P (.num n))
    (hstr : ∀ s, P (.str s))
    (harr : ∀ xs, (∀ x ∈ xs, P x) → P (.arr xs))
    (hobj : ∀ fs, (∀ f ∈ fs, P f.2) → P (.obj fs)) : ∀ v, P v
  | .null => hnull
  | .bool b => hbool b
  | .num n => hnum n
  | .str s => hstr s
  | .arr xs => harr xs (fun x hx =>
      JValue.recStrong P hnull hbool hnum hstr harr hobj x)
  | .obj fs => hobj fs (fun f hf =>
      JValue.recStrong P hnull hbool hnum hstr harr hobj f.2)
termination_by v => sizeOf v
decreasing_by
  · have h1 := List.sizeOf_lt_of_mem hx
    simp only [JValue.arr.sizeOf_spec]
    omega
  · have h1 := List.sizeOf_lt_of_mem hf
    have h2 : sizeOf f.2 < sizeOf f := by
      rcases f with ⟨a, b⟩
      simp only [Prod.mk.sizeOf_spec]
      omega
    simp only [JValue.obj.sizeOf_spec]
    omega

theorem isDigit_ne_of (c : Char) (h : c.isDigit = true) :
    ∀ d : Char, d.isDigit = false → c ≠ d := by
  intro d hd he
  rw [he, hd] at h
  cases h

/-- The first character of a serialized value is never a closing
bracket (it is a quote, brace, bracket, sign, digit, or letter). -/
theorem dumpsVal_shape (v : JValue) :
    ∃ c cs, dumpsVal v = c :: cs ∧ c ≠ ']' := by
  cases v with
  | null => exact ⟨'n', ['u', 'l', 'l'], by simp [dumpsVal], by decide⟩
  | bool b => cases b with
    | false => exact ⟨'f', ['a', 'l', 's', 'e'], by simp [dumpsVal], by decide⟩
    | true => exact ⟨'t', ['r', 'u', 'e'], by simp [dumpsVal], by decide⟩
  | num n =>
    by_cases hneg : n < 0
    · exact ⟨'-', natToDigits n.natAbs, by simp [dumpsVal, hneg], by decide⟩
    · cases hnd : natToDigits n.toNat with
      | nil => exact absurd hnd (natToDigits_ne_nil _)
      | cons c cs =>
        have hc : c.isDigit = true :=
          natToDigits_all_digits n.toNat c (hnd ▸ List.mem_cons_self _ _)
        exact ⟨c, cs, by simp [dumpsVal, hneg, hnd],
          isDigit_ne_of c hc ']' (by decide)⟩
  | str s => exact ⟨'"', escapeStr s.data ++ ['"'], by simp [dumpsVal], by decide⟩
  | arr xs => exact ⟨'[', dumpsElems xs, by simp [dumpsVal], by decide⟩
  | obj fs => exact ⟨'{', dumpsFields fs, by simp [dumpsVal], by decide⟩

theorem parseElems_dumps : ∀ xs : List JValue,
    (∀ x ∈ xs, ∀ fuel rest, jsize x ≤ fuel → headNotDigit rest = true →
        parseValue fuel (dumpsVal x ++ rest) = some (x, rest)) →
    ∀ fuel rest, jsizeElems xs ≤ fuel → headNotDigit rest = true →
      parseElems fuel (dumpsElems xs ++ rest) = some (xs, rest) := by
  intro xs
  induction xs with
  | nil =>
    intro _ fuel rest h1 h2
    have hsz : jsizeElems ([] : List JValue) = 1 := by simp [jsizeElems]
    rw [hsz] at h1
    obtain ⟨f, rfl⟩ : ∃ f, fuel = f + 1 := ⟨fuel - 1, by omega⟩
    have hd : dumpsElems ([] : List JValue) = [']'] := by simp [dumpsElems]
    rw [hd]
    simp [parseElems]
  | cons x xs' ih =>
    intro hIH fuel rest h1 h2
    have hx := hIH x (List.mem_cons_self _ _)
    obtain ⟨c, cs, hshape, hne⟩ := dumpsVal_shape x
    cases xs' with
    | nil =>
      have hsz : jsizeElems [x] = 2 + jsize x := by
        simp [jsizeElems]
        omega
      rw [hsz] at h1
      obtain ⟨f, rfl⟩ : ∃ f, fuel = f + 1 := ⟨fuel - 1, by omega⟩
      have hd : dumpsElems [x] ++ rest = c :: (cs ++ (']' :: rest)) := by
        simp [dumpsElems, hshape]
      rw [hd]
      have hv : parseValue f (c :: (cs ++ (']' :: rest))) = some (x, ']' :: rest) := by
        rw [show c :: (cs ++ (']' :: rest)) = dumpsVal x ++ (']' :: rest) by
          simp [hshape]]
        exact hx f (']' :: rest) (by omega) rfl
      simp [parseElems, hne, hv]
    | cons y ys =>
      have hsz : jsizeElems (x :: y :: ys) = 1 + jsize x + jsizeElems (y :: ys) := by
        simp [jsizeElems]
      rw [hsz] at h1
      have hszy : 1 ≤ jsizeElems (y :: ys) := by
        simp [jsizeElems]
        omega
      obtain ⟨f, rfl⟩ : ∃ f, fuel = f + 1 := ⟨fuel - 1, by omega⟩
      have hd : dumpsElems (x :: y :: ys) ++ rest
          = c :: (cs ++ (',' :: (dumpsElems (y :: ys) ++ rest))) := by
        simp [dumpsElems, hshape]
      rw [hd]
      have hv : parseValue f (c :: (cs ++ (',' :: (dumpsElems (y :: ys) ++ rest))))
          = some (x, ',' :: (dumpsElems (y :: ys) ++ rest)) := by
        rw [show c :: (cs ++ (',' :: (dumpsElems (y :: ys) ++ rest)))
            = dumpsVal x ++ (',' :: (dumpsElems (y :: ys) ++ rest)) by simp [hshape]]
        exact hx f _ (by omega) rfl
      have hrec : parseElems f (dumpsElems (y :: ys) ++ rest) = some (y :: ys, rest) :=
        ih (fun z hz => hIH z (List.mem_cons_of_mem _ hz)) f rest (by omega) h2
      simp [parseElems, hne, hv, hrec]

theorem parseFields_dumps : ∀ fs : List (String × JValue),
    (∀ f ∈ fs, ∀ fuel rest, jsize f.2 ≤ fuel → headNotDigit rest = true →
        parseValue fuel (dumpsVal f.2 ++ rest) = some (f.2, rest)) →
    ∀ fuel rest, jsizeFields fs ≤ fuel → headNotDigit rest = true →
      parseFields fuel (dumpsFields fs ++ rest) = some (fs, rest) := by
  intro fs
  induction fs with
  | nil =>
    intro _ fuel rest h1 h2
    have hsz : jsizeFields ([] : List (String × JValue)) = 1 := by simp [jsizeFields]
    rw [hsz] at h1
    obtain ⟨f, rfl⟩ : ∃ f, fuel = f + 1 := ⟨fuel - 1, by omega⟩
    have hd : dumpsFields ([] : List (String × JValue)) = ['}'] := by
      simp [dumpsFields]
    rw [hd]
    simp [parseFields]
  | cons kv fs' ih =>
    intro hIH fuel rest h1 h2
    rcases kv with ⟨k, v⟩
    have hx : ∀ fuel rest, jsize v ≤ fuel → headNotDigit rest = true →
        parseValue fuel (dumpsVal v ++ rest) = some (v, rest) :=
      hIH (k, v) (List.mem_cons_self _ _)
    cases fs' with
    | nil =>
      have hsz : jsizeFields [(k, v)] = 2 + jsize v := by
        simp [jsizeFields]
        omega
      rw [hsz] at h1
      obtain ⟨f, rfl⟩ : ∃ f, fuel = f + 1 := ⟨fuel - 1, by omega⟩
      have hd : dumpsFields [(k, v)] ++ rest
          = '"' :: (escapeStr k.data ++ ('"' :: (':' :: (dumpsVal v ++ ('}' :: rest))))) := by
        simp [dumpsFields]
      rw [hd]
      have hk : parseStrBody (escapeStr k.data ++ ('"' :: (':' :: (dumpsVal v ++ ('}' :: rest)))))
          = some (k.data, ':' :: (dumpsVal v ++ ('}' :: rest))) :=
        parseStrBody_escape _ k.data
      have hv : parseValue f (dumpsVal v ++ ('}' :: rest)) = some (v, '}' :: rest) :=
        hx f _ (by omega) rfl
      simp [parseFields, hk, hv]
    | cons g gs =>
      have hsz : jsizeFields ((k, v) :: g :: gs)
          = 1 + jsize v + jsizeFields (g :: gs) := by
        simp [jsizeFields]
      rw [hsz] at h1
      have hszg : 1 ≤ jsizeFields (g :: gs) := by
        rcases g with ⟨gk, gv⟩
        simp [jsizeFields]
        omega
      obtain ⟨f, rfl⟩ : ∃ f, fuel = f + 1 := ⟨fuel - 1, by omega⟩
      have hd : dumpsFields ((k, v) :: g :: gs) ++ rest
          = '"' :: (escapeStr k.data
              ++ ('"' :: (':' :: (dumpsVal v
                  ++ (',' :: (dumpsFields (g :: gs) ++ rest)))))) := by
        simp [dumpsFields]
      rw [hd]
      have hk : parseStrBody (escapeStr k.data
            ++ ('"' :: (':' :: (dumpsVal v ++ (',' :: (dumpsFields (g :: gs) ++ rest))))))
          = some (k.data, ':' :: (dumpsVal v ++ (',' :: (dumpsFields (g :: gs) ++ rest)))) :=
        parseStrBody_escape _ k.data
      have hv : parseValue f (dumpsVal v ++ (',' :: (dumpsFields (g :: gs) ++ rest)))
          = some (v, ',' :: (dumpsFields (g :: gs) ++ rest)) :=
        hx f _ (by omega) rfl
      have hrec : parseFields f (dumpsFields (g :: gs) ++ rest) = some (g :: gs, rest) :=
        ih (fun z hz => hIH z (List.mem_cons_of_mem _ hz)) f rest (by omega) h2
      simp [parseFields, hk, hv, hrec]

theorem parseValue_dumps : ∀ v : JValue, ∀ fuel rest, jsize v ≤ fuel →
    headNotDigit rest = true →
    parseValue fuel (dumpsVal v ++ rest) = some (v, rest) := by
  refine JValue.recStrong _ ?_ ?_ ?_ ?_ ?_ ?_
  · intro fuel rest h1 h2
    have hsz : jsize JValue.null = 1 := by simp [jsize]
    rw [hsz] at h1
    obtain ⟨f, rfl⟩ : ∃ f, fuel = f + 1 := ⟨fuel - 1, by omega⟩
    have hd : dumpsVal JValue.null ++ rest = 'n' :: 'u' :: 'l' :: 'l' :: rest := by
      simp [dumpsVal]
    rw [hd]
    simp [parseValue]
  · intro b fuel rest h1 h2
    have hsz : jsize (JValue.bool b) = 1 := by simp [jsize]
    rw [hsz] at h1
    obtain ⟨f, rfl⟩ : ∃ f, fuel = f + 1 := ⟨fuel - 1, by omega⟩
    cases b with
    | false =>
      have hd : dumpsVal (JValue.bool false) ++ rest
          = 'f' :: 'a' :: 'l' :: 's' :: 'e' :: rest := by simp [dumpsVal]
      rw [hd]
      simp [parseValue]
    | true =>
      have hd : dumpsVal (JValue.bool true) ++ rest
          = 't' :: 'r' :: 'u' :: 'e' :: rest := by simp [dumpsVal]
      rw [hd]
      simp [parseValue]
  · intro n fuel rest h1 h2
    have hsz : jsize (JValue.num n) = 1 := by simp [jsize]
    rw [hsz] at h1
    obtain ⟨f, rfl⟩ : ∃ f, fuel = f + 1 := ⟨fuel - 1, by omega⟩
    by_cases hneg : n < 0
    · have hd : dumpsVal (JValue.num n) ++ rest
          = '-' :: (natToDigits n.natAbs ++ rest) := by simp [dumpsVal, hneg]
      rw [hd]
      have hp : parseNat (natToDigits n.natAbs ++ rest) = some (n.natAbs, rest) :=
        parseNat_natToDigits _ _ h2
      have hn : -((n.natAbs : Nat) : Int) = n := by omega
      simp [parseValue, hp, hn]
      rw [abs_of_nonpos (by omega : n ≤ 0)]
      ring
    · cases hnd : natToDigits n.toNat with
      | nil => exact absurd hnd (natToDigits_ne_nil _)
      | cons c cs =>
        have hc : c.isDigit = true :=
          natToDigits_all_digits _ c (hnd ▸ List.mem_cons_self _ _)
        have hd : dumpsVal (JValue.num n) ++ rest = c :: (cs ++ rest) := by
          simp [dumpsVal, hneg, hnd]
        rw [hd]
        have hcn := isDigit_ne_of c hc 'n' (by decide)
        have hct := isDigit_ne_of c hc 't' (by decide)
        have hcf := isDigit_ne_of c hc 'f' (by decide)
        have hcq := isDigit_ne_of c hc '"' (by decide)
        have hcb := isDigit_ne_of c hc '[' (by decide)
        have hco := isDigit_ne_of c hc '{' (by decide)
        have hcm := isDigit_ne_of c hc '-' (by decide)
        have hp : parseNat (c :: (cs ++ rest)) = some (n.toNat, rest) := by
          rw [show c :: (cs ++ rest) = natToDigits n.toNat ++ rest by simp [hnd]]
          exact parseNat_natToDigits _ _ h2
        have hn : ((n.toNat : Nat) : Int) = n := by omega
        simp [parseValue, hcn, hct, hcf, hcq, hcb, hco, hcm, hc, hp, hn]
  · intro s fuel rest h1 h2
    have hsz : jsize (JValue.str s) = 1 := by simp [jsize]
    rw [hsz] at h1
    obtain ⟨f, rfl⟩ : ∃ f, fuel = f + 1 := ⟨fuel - 1, by omega⟩
    have hd : dumpsVal (JValue.str s) ++ rest
        = '"' :: (escapeStr s.data ++ ('"' :: rest)) := by simp [dumpsVal]
    rw [hd]
    have hk := parseStrBody_escape rest s.data
    simp [parseValue, hk]
  · intro xs hxs fuel rest h1 h2
    have hsz : jsize (JValue.arr xs) = 1 + jsizeElems xs := by simp [jsize]
    rw [hsz] at h1
    obtain ⟨f, rfl⟩ : ∃ f, fuel = f + 1 := ⟨fuel - 1, by omega⟩
    have hd : dumpsVal (JValue.arr xs) ++ rest = '[' :: (dumpsElems xs ++ rest) := by
      simp [dumpsVal]
    rw [hd]
    have he : parseElems f (dumpsElems xs ++ rest) = some (xs, rest) :=
      parseElems_dumps xs hxs f rest (by omega) h2
    simp [parseValue, he]
  · intro fs hfs fuel rest h1 h2
    have hsz : jsize (JValue.obj fs) = 1 + jsizeFields fs := by simp [jsize]
    rw [hsz] at h1
    obtain ⟨f, rfl⟩ : ∃ f, fuel = f + 1 := ⟨fuel - 1, by omega⟩
    have hd : dumpsVal (JValue.obj fs) ++ rest = '{' :: (dumpsFields fs ++ rest) := by
      simp [dumpsVal]
    rw [hd]
    have he : parseFields f (dumpsFields fs ++ rest) = some (fs, rest) :=
      parseFields_dumps fs hfs f rest (by omega) h2
    simp [parseValue, he]

theorem dumpsVal_length_pos (v : JValue) : 1 ≤ (dumpsVal v).length := by
  obtain ⟨c, cs, hshape, -⟩ := dumpsVal_shape v
  rw [hshape]
  simp

theorem jsizeElems_le_length (xs : List JValue)
    (hIH : ∀ x ∈ xs, jsize x + 1 ≤ 2 * (dumpsVal x).length) :
    jsizeElems xs + 1 ≤ 2 * (dumpsElems xs).length := by
  induction xs with
  | nil => simp [jsizeElems, dumpsElems]
  | cons x xs' ih =>
    have hx := hIH x (List.mem_cons_self _ _)
    cases xs' with
    | nil =>
      have h1 : jsizeElems [x] = 2 + jsize x := by simp [jsizeElems]; omega
      have h2 : (dumpsElems [x]).length = (dumpsVal x).length + 1 := by
        simp [dumpsElems]
      omega
    | cons y ys =>
      have hrec := ih (fun z hz => hIH z (List.mem_cons_of_mem _ hz))
      have h1 : jsizeElems (x :: y :: ys) = 1 + jsize x + jsizeElems (y :: ys) := by
        simp [jsizeElems]
      have h2 : (dumpsElems (x :: y :: ys)).length
          = (dumpsVal x).length + 1 + (dumpsElems (y :: ys)).length := by
        simp [dumpsElems]
        omega
      omega

theorem jsizeFields_le_length (fs : List (String × JValue))
    (hIH : ∀ f ∈ fs, jsize f.2 + 1 ≤ 2 * (dumpsVal f.2).length) :
    jsizeFields fs + 1 ≤ 2 * (dumpsFields fs).length := by
  induction fs with
  | nil => simp [jsizeFields, dumpsFields]
  | cons kv fs' ih =>
    rcases kv with ⟨k, v⟩
    have hx : jsize v + 1 ≤ 2 * (dumpsVal v).length := hIH (k, v) (List.mem_cons_self _ _)
    cases fs' with
    | nil =>
      have h1 : jsizeFields [(k, v)] = 2 + jsize v := by simp [jsizeFields]; omega
      have h2 : (dumpsFields [(k, v)]).length
          = (escapeStr k.data).length + (dumpsVal v).length + 4 := by
        simp [dumpsFields]
        omega
      omega
    | cons g gs =>
      have hrec := ih (fun z hz => hIH z (List.mem_cons_of_mem _ hz))
      have h1 : jsizeFields ((k, v) :: g :: gs)
          = 1 + jsize v + jsizeFields (g :: gs) := by simp [jsizeFields]
      have h2 : (dumpsFields ((k, v) :: g :: gs)).length
          = (escapeStr k.data).length + (dumpsVal v).length + 4
            + (dumpsFields (g :: gs)).length := by
        simp [dumpsFields]
        omega
      omega

theorem jsize_le_length : ∀ v : JValue, jsize v + 1 ≤ 2 * (dumpsVal v).length := by
  refine JValue.recStrong _ ?_ ?_ ?_ ?_ ?_ ?_
  · simp [jsize, dumpsVal]
  · intro b
    cases b <;> simp [jsize, dumpsVal]
  · intro n
    have h1 : jsize (JValue.num n) = 1 := by simp [jsize]
    have h2 := dumpsVal_length_pos (JValue.num n)
    omega
  · intro s
    have h1 : jsize (JValue.str s) = 1 := by simp [jsize]
    have h2 : (dumpsVal (JValue.str s)).length = (escapeStr s.data).length + 2 := by
      simp [dumpsVal]
    omega
  · intro xs hxs
    have h1 : jsize (JValue.arr xs) = 1 + jsizeElems xs := by simp [jsize]
    have h2 : (dumpsVal (JValue.arr xs)).length = 1 + (dumpsElems xs).length := by
      simp [dumpsVal]
      omega
    have h3 := jsizeElems_le_length xs hxs
    omega
  · intro fs hfs
    have h1 : jsize (JValue.obj fs) = 1 + jsizeFields fs := by simp [jsize]
    have h2 : (dumpsVal (JValue.obj fs)).length = 1 + (dumpsFields fs).length := by
      simp [dumpsVal]
      omega
    have h3 := jsizeFields_le_length fs hfs
    omega

/-- Round trip: parsing a serialized value recovers the value. -/
theorem loads_dumps (v : JValue) : loads (dumps v) = some v := by
  rw [loads, dumps]
  have hdata : (String.mk (dumpsVal v)).data = dumpsVal v := rfl
  rw [hdata]
  have hfuel : jsize v ≤ 2 * (dumpsVal v).length + 2 := by
    have := jsize_le_length v
    omega
  have hp : parseValue (2 * (dumpsVal v).length + 2) (dumpsVal v ++ [])
      = some (v, []) := parseValue_dumps v _ [] hfuel rfl
  rw [List.append_nil] at hp
  rw [hp]

/-- `DataStorage.save_setting` (`data_storage.py` lines 255-296):
serialize the value to JSON text, then `UPDATE` the existing row if the
key is present, else `INSERT`; returns `True` on success. -/
def save_setting (key : String) (value : JValue)
    (settings : List (String × String)) : Bool × List (String × String) :=
  let value_json := dumps value
  if settings.any (fun p => p.1 == key) then
    (true, settings.map (fun p => if p.1 == key then (p.1, value_json) else p))
  else
    (true, settings ++ [(key, value_json)])

/-- `DataStorage.get_setting` (`data_storage.py` lines 298-329):
`SELECT value FROM settings WHERE key = ?`; deserialize the stored text,
returning the caller-supplied default when the key is absent or when
reading/parsing fails (the `except` branch). -/
def get_setting (key : String) (default : JValue)
    (settings : List (String × String)) : JValue :=
  match settings.find? (fun p => p.1 == key) with
  | some p =>
    match loads p.2 with
    | some v => v
    | none => default
  | none => default

theorem find?_map_upsert (key vj : String) : ∀ settings : List (String × String),
    settings.any (fun p => p.1 == key) = true →
    (settings.map (fun p => if p.1 == key then (p.1, vj) else p)).find?
        (fun p => p.1 == key) = some (key, vj) := by
  intro settings
  induction settings with
  | nil => simp
  | cons p ps ih =>
    intro hany
    rw [List.map_cons]
    by_cases hp : (p.1 == key) = true
    · have hkey : p.1 = key := by simpa using hp
      have hhead : (if p.1 == key then (p.1, vj) else p) = (key, vj) := by
        rw [if_pos hp, hkey]
      rw [hhead]
      rw [List.find?_cons_of_pos]
      simp
    · have hp' : (p.1 == key) = false := Bool.eq_false_iff.mpr hp
      have hhead : (if p.1 == key then (p.1, vj) else p) = p := by
        rw [if_neg]
        simp [hp']
      rw [hhead, List.find?_cons_of_neg _ (by simp [hp'])]
      have hany' : ps.any (fun q => q.1 == key) = true := by
        rw [List.any_cons, hp'] at hany
        simpa using hany
      exact ih hany'

theorem find?_append_missing (key vj : String) : ∀ settings : List (String × String),
    settings.any (fun p => p.1 == key) = false →
    (settings ++ [(key, vj)]).find? (fun p => p.1 == key) = some (key, vj) := by
  intro settings
  induction settings with
  | nil =>
    intro _
    rw [List.nil_append, List.find?_cons_of_pos _ (by simp)]
  | cons p ps ih =>
    intro hany
    rw [List.any_cons] at hany
    have hp : (p.1 == key) = false := by
      rcases Bool.or_eq_false_iff.mp hany with ⟨h1, -⟩
      exact h1
    have hps : ps.any (fun q => q.1 == key) = false :=
      (Bool.or_eq_false_iff.mp hany).2
    rw [List.cons_append, List.find?_cons_of_neg _ (by simp [hp])]
    exact ih hps

/-- C5.  Setting round trip: `save_setting key v` followed by
`get_setting key d` returns a value structurally equal to `v` (for every
prior table state); `get_setting` on a key that was never stored returns
the caller-supplied default; and a stored text that fails to parse also
yields the default instead of an error. -/
theorem setting_roundtrip_spec (key : String) (v : JValue) (d : JValue)
    (settings : List (String × String)) :
    get_setting key d (save_setting key v settings).2 = v
    ∧ ((∀ p ∈ settings, p.1 ≠ key) → get_setting key d settings = d)
    ∧ (∀ p, settings.find? (fun q => q.1 == key) = some p → loads p.2 = none →
        get_setting key d settings = d) := by
  refine ⟨?_, ?_, ?_⟩
  · by_cases hany : settings.any (fun p => p.1 == key) = true
    · have h2 : (save_setting key v settings).2
          = settings.map (fun p => if p.1 == key then (p.1, dumps v) else p) := by
        simp [save_setting, hany]
      rw [h2, get_setting, find?_map_upsert key (dumps v) settings hany]
      simp [loads_dumps]
    · have hany' : settings.any (fun p => p.1 == key) = false :=
        Bool.eq_false_iff.mpr hany
      have h2 : (save_setting key v settings).2 = settings ++ [(key, dumps v)] := by
        simp [save_setting, hany']
      rw [h2, get_setting, find?_append_missing key (dumps v) settings hany']
      simp [loads_dumps]
  · intro hnone
    have hfind : settings.find? (fun p => p.1 == key) = none := by
      rw [List.find?_eq_none]
      intro p hp
      simpa using hnone p hp
    rw [get_setting, hfind]
  · intro p hp hl
    rw [get_setting, hp]
    simp [hl]

/-- The spec's example setting value `{"a": 1, "b": [1, 2, 3]}`. -/
def exampleSetting : JValue :=
  JValue.obj [("a", JValue.num 1),
    ("b", JValue.arr [JValue.num 1, JValue.num 2, JValue.num 3])]

/-- Witness for C5 at the spec's concrete example: the round trip through
an empty settings table recovers the object, and a missing key returns
the default `42`. -/
theorem setting_roundtrip_spec_witness :
    get_setting "k" JValue.null (save_setting "k" exampleSetting []).2 = exampleSetting
    ∧ get_setting "missing" (JValue.num 42) [] = JValue.num 42 := by
  constructor
  · exact (setting_roundtrip_spec "k" exampleSetting JValue.null []).1
  · exact (setting_roundtrip_spec "missing" exampleSetting (JValue.num 42) []).2.1
      (by simp)
